import Mathlib

/-!
Verification of the AVL ordered-set engine and the ASCII tree renderer
from `src/main.cpp` (class `AVLTree<T>` instantiated at `int`, and class
`TreePrinter`).  The C++ code is shallowly embedded: nullable
`unique_ptr<Node>` subtrees become an inductive type with an explicit
`nil` constructor, the stored `int height` field is kept as data, and
the recursive mutators are translated call for call.
-/

namespace AVLSpec

/-- A `Node` of `AVLTree<int>`: `value`, owned `left`/`right` subtrees
(`nil` models a null `unique_ptr`) and the stored `height` field
(`int`, set to 1 on construction). -/
inductive AVL : Type
  | nil : AVL
  | node (value : Int) (left : AVL) (right : AVL) (height : Int) : AVL
deriving DecidableEq

namespace AVL

/-- Source `AVLTree::height`: stored height of a node, 0 for null. -/
def height : AVL → Int
  | .nil => 0
  | .node _ _ _ h => h

/-- Source `AVLTree::balanceFactor`: `height(left) - height(right)`, 0 for null. -/
def balanceFactor : AVL → Int
  | .nil => 0
  | .node _ l r _ => height l - height r

/-- Source `AVLTree::updateHeight`: recompute the stored height field from the
children's stored heights; no-op on null. -/
def updateHeight : AVL → AVL
  | .nil => .nil
  | .node v l r _ => .node v l r (1 + max (height l) (height r))

/-- Source `AVLTree::rotateRight`: `x = y->left; y->left = x->right;
updateHeight(y); x->right = y; updateHeight(x); return x`.  The source
dereferences `y->left` unconditionally, so inputs whose left child is
null never reach it; on such inputs the translation returns the input. -/
def rotateRight : AVL → AVL
  | .node yv (.node xv xl xr _) yr _ =>
      let y := AVL.node yv xr yr (1 + max (height xr) (height yr))
      AVL.node xv xl y (1 + max (height xl) (height y))
  | t => t

/-- Source `AVLTree::rotateLeft`: symmetric to `rotateRight`. -/
def rotateLeft : AVL → AVL
  | .node xv xl (.node yv yl yr _) _ =>
      let x := AVL.node xv xl yl (1 + max (height xl) (height yl))
      AVL.node yv x yr (1 + max (height x) (height yr))
  | t => t

/-- Source `AVLTree::balance`: update the height, compute the balance factor,
and rotate per the AVL cases (double rotation exactly when the inner
child's balance factor is strictly on the wrong side). -/
def balance : AVL → AVL
  | .nil => .nil
  | .node v l r _ =>
      let h := 1 + max (height l) (height r)
      let bf := height l - height r
      if 1 < bf then
        let l' := if balanceFactor l < 0 then rotateLeft l else l
        rotateRight (AVL.node v l' r h)
      else if bf < -1 then
        let r' := if 0 < balanceFactor r then rotateRight r else r
        rotateLeft (AVL.node v l r' h)
      else
        AVL.node v l r h

/-- Source `AVLTree::insert` (private recursive overload). -/
def insert (node : AVL) (value : Int) : AVL :=
  match node with
  | .nil => .node value .nil .nil 1
  | .node v l r h =>
      if value < v then balance (.node v (insert l value) r h)
      else if value > v then balance (.node v l (insert r value) h)
      else .node v l r h

/-- The `while (node->left)` loop of `AVLTree::findMin`, started at a
non-null node with value `v` and left subtree `t`. -/
def findMinGo (v : Int) : AVL → Int
  | .nil => v
  | .node v' l _ _ => findMinGo v' l

/-- Source `AVLTree::remove` (private recursive overload).  The two-children
case copies the in-order successor's value (`findMin` of the right
subtree) and removes that value from the right subtree. -/
def remove (node : AVL) (value : Int) : AVL :=
  match node with
  | .nil => .nil
  | .node v l r h =>
      if value < v then balance (.node v (remove l value) r h)
      else if value > v then balance (.node v l (remove r value) h)
      else
        match l with
        | .nil => r
        | _ =>
          match r with
          | .nil => l
          | .node rv rl _ _ =>
              balance (.node (findMinGo rv rl) l (remove r (findMinGo rv rl)) h)

/-- Source `AVLTree::search`: descend by comparison; the source returns the
found node pointer (null if absent), of which callers only observe
nullness and the `value` field, so the translation returns that value. -/
def search (node : AVL) (value : Int) : Option Int :=
  match node with
  | .nil => none
  | .node v l r _ =>
      if value < v then search l value
      else if value > v then search r value
      else some v

/-- Source `AVLTree::contains`: `search(root, v) != nullptr`. -/
def contains (t : AVL) (value : Int) : Bool :=
  (search t value).isSome

/-- Source `AVLTree::get`: the found node's value as an optional. -/
def get (t : AVL) (value : Int) : Option Int :=
  search t value

/-- Source `AVLTree::inorderTraversal` with a list-building visitor:
left subtree, the node's value, right subtree. -/
def inorderTraversal : AVL → List Int
  | .nil => []
  | .node v l r _ => inorderTraversal l ++ v :: inorderTraversal r

end AVL

/-- A public mutating operation of the `AVLTree` facade. -/
inductive Op : Type
  | ins (v : Int) : Op
  | del (v : Int) : Op
deriving DecidableEq

/-- Apply one public operation to the root, as the public `insert` /
`remove` wrappers do. -/
def applyOp (t : AVL) : Op → AVL
  | .ins v => AVL.insert t v
  | .del v => AVL.remove t v

/-- The tree obtained from the empty tree (`AVLTree()` with null root)
by a sequence of public operations. -/
def run (ops : List Op) : AVL :=
  ops.foldl applyOp .nil

/-- Structural height of a subtree: 0 when empty, otherwise one more
than the larger child's structural height. -/
def realHeight : AVL → Int
  | .nil => 0
  | .node _ l r _ => 1 + max (realHeight l) (realHeight r)

/-- Every value stored in the subtree satisfies `p`. -/
def ForallTree (p : Int → Prop) : AVL → Prop
  | .nil => True
  | .node v l r _ => p v ∧ ForallTree p l ∧ ForallTree p r

/-- BST order: at every node, all values on the left are smaller and
all values on the right are larger. -/
def IsBST : AVL → Prop
  | .nil => True
  | .node v l r _ =>
      ForallTree (· < v) l ∧ ForallTree (v < ·) r ∧ IsBST l ∧ IsBST r

/-- AVL balance: at every node the structural heights of the two
subtrees differ by at most 1. -/
def BalancedT : AVL → Prop
  | .nil => True
  | .node _ l r _ =>
      realHeight l - realHeight r ≤ 1 ∧ realHeight r - realHeight l ≤ 1 ∧
      BalancedT l ∧ BalancedT r

/-- The stored height field equals the structural height at every node. -/
def HeightsOk : AVL → Prop
  | .nil => True
  | .node _ l r h =>
      h = 1 + max (realHeight l) (realHeight r) ∧ HeightsOk l ∧ HeightsOk r

instance ForallTree.instDecidable (p : Int → Prop) [DecidablePred p] :
    ∀ t, Decidable (ForallTree p t)
  | .nil => .isTrue trivial
  | .node v l r _ =>
      haveI := ForallTree.instDecidable p l
      haveI := ForallTree.instDecidable p r
      inferInstanceAs (Decidable (p v ∧ ForallTree p l ∧ ForallTree p r))

instance IsBST.instDecidable : ∀ t, Decidable (IsBST t)
  | .nil => .isTrue trivial
  | .node v l r h =>
      haveI := IsBST.instDecidable l
      haveI := IsBST.instDecidable r
      inferInstanceAs (Decidable (ForallTree (· < v) l ∧ ForallTree (v < ·) r ∧
        IsBST l ∧ IsBST r))

instance BalancedT.instDecidable : ∀ t, Decidable (BalancedT t)
  | .nil => .isTrue trivial
  | .node _ l r _ =>
      haveI := BalancedT.instDecidable l
      haveI := BalancedT.instDecidable r
      inferInstanceAs (Decidable (realHeight l - realHeight r ≤ 1 ∧
        realHeight r - realHeight l ≤ 1 ∧ BalancedT l ∧ BalancedT r))

instance HeightsOk.instDecidable : ∀ t, Decidable (HeightsOk t)
  | .nil => .isTrue trivial
  | .node _ l r h =>
      haveI := HeightsOk.instDecidable l
      haveI := HeightsOk.instDecidable r
      inferInstanceAs (Decidable (h = 1 + max (realHeight l) (realHeight r) ∧
        HeightsOk l ∧ HeightsOk r))

example : run [Op.ins 10, Op.ins 20, Op.ins 30] =
    AVL.node 20 (AVL.node 10 .nil .nil 1) (AVL.node 30 .nil .nil 1) 2 := by decide

example : AVL.inorderTraversal (run [Op.ins 10, Op.ins 20, Op.ins 30, Op.ins 40,
    Op.ins 50, Op.ins 25]) = [10, 20, 25, 30, 40, 50] := by decide

example : IsBST (run [Op.ins 3, Op.ins 1, Op.ins 2]) := by decide

theorem realHeight_nonneg : ∀ t, 0 ≤ realHeight t
  | .nil => le_refl 0
  | .node _ l r _ => by
      have hl := realHeight_nonneg l
      have hr := realHeight_nonneg r
      simp only [realHeight]
      omega

theorem height_eq {t : AVL} (h : HeightsOk t) : AVL.height t = realHeight t := by
  cases t with
  | nil => rfl
  | node v l r hh =>
      obtain ⟨h1, -, -⟩ := h
      simpa [AVL.height, realHeight] using h1

theorem inorder_rotateLeft (t : AVL) :
    (AVL.rotateLeft t).inorderTraversal = t.inorderTraversal := by
  cases t with
  | nil => rfl
  | node xv xl r h =>
      cases r with
      | nil => rfl
      | node yv yl yr yh =>
          simp [AVL.rotateLeft, AVL.inorderTraversal]

theorem inorder_rotateRight (t : AVL) :
    (AVL.rotateRight t).inorderTraversal = t.inorderTraversal := by
  cases t with
  | nil => rfl
  | node yv l yr h =>
      cases l with
      | nil => rfl
      | node xv xl xr xh =>
          simp [AVL.rotateRight, AVL.inorderTraversal]

theorem inorder_balance (v : Int) (l r : AVL) (h : Int) :
    (AVL.balance (.node v l r h)).inorderTraversal =
      l.inorderTraversal ++ v :: r.inorderTraversal := by
  simp only [AVL.balance]
  split_ifs <;>
    simp [inorder_rotateRight, inorder_rotateLeft, AVL.inorderTraversal,
      apply_ite AVL.inorderTraversal]

theorem forallTree_iff (p : Int → Prop) :
    ∀ t, ForallTree p t ↔ ∀ x ∈ t.inorderTraversal, p x
  | .nil => by simp [ForallTree, AVL.inorderTraversal]
  | .node v l r h => by
      have hl := forallTree_iff p l
      have hr := forallTree_iff p r
      simp only [ForallTree, AVL.inorderTraversal, hl, hr, List.mem_append,
        List.mem_cons]
      constructor
      · rintro ⟨h1, h2, h3⟩ x (hx | rfl | hx)
        · exact h2 x hx
        · exact h1
        · exact h3 x hx
      · intro H
        exact ⟨H v (Or.inr (Or.inl rfl)),
          fun x hx => H x (Or.inl hx),
          fun x hx => H x (Or.inr (Or.inr hx))⟩

theorem isBST_iff_pairwise : ∀ t, IsBST t ↔ t.inorderTraversal.Pairwise (· < ·)
  | .nil => by simp [IsBST, AVL.inorderTraversal]
  | .node v l r h => by
      have hl := isBST_iff_pairwise l
      have hr := isBST_iff_pairwise r
      simp only [IsBST, AVL.inorderTraversal, List.pairwise_append,
        List.pairwise_cons, hl, hr, forallTree_iff, List.mem_cons]
      constructor
      · rintro ⟨h1, h2, h3, h4⟩
        refine ⟨h3, ⟨h2, h4⟩, ?_⟩
        rintro a ha b (rfl | hb)
        · exact h1 a ha
        · exact lt_trans (h1 a ha) (h2 b hb)
      · rintro ⟨h3, ⟨h2, h4⟩, hcross⟩
        exact ⟨fun a ha => hcross a ha v (Or.inl rfl), h2, h3, h4⟩

theorem nodup_of_isBST {t : AVL} (h : IsBST t) : t.inorderTraversal.Nodup := by
  have := (isBST_iff_pairwise t).mp h
  exact this.imp ne_of_lt

/-- Behaviour of `AVLTree::balance` on well-formed children whose
structural heights differ by at most two: the result keeps the height
fields correct, is AVL-balanced, and its structural height lies between
`max` and `max + 1` of the children's heights (with equality
`1 + max` whenever no rotation fires). -/
theorem balance_spec (v : Int) (l r : AVL) (h : Int)
    (hl : HeightsOk l) (hr : HeightsOk r) (bl : BalancedT l) (br : BalancedT r)
    (d1 : realHeight l - realHeight r ≤ 2) (d2 : realHeight r - realHeight l ≤ 2) :
    HeightsOk (AVL.balance (.node v l r h)) ∧
    BalancedT (AVL.balance (.node v l r h)) ∧
    max (realHeight l) (realHeight r) ≤ realHeight (AVL.balance (.node v l r h)) ∧
    realHeight (AVL.balance (.node v l r h)) ≤ 1 + max (realHeight l) (realHeight r) ∧
    (realHeight (AVL.balance (.node v l r h)) =
        1 + max (realHeight l) (realHeight r) ∨
      realHeight l - realHeight r = 2 ∨ realHeight r - realHeight l = 2) := by
  have Pl := realHeight_nonneg l
  have Pr := realHeight_nonneg r
  have Hl := height_eq hl
  have Hr := height_eq hr
  simp only [AVL.balance]
  split_ifs with c1 c2 c3 c4
  · -- left heavy, double rotation
    rw [Hl, Hr] at c1
    cases l with
    | nil => simp only [realHeight] at c1; omega
    | node lv ll lr lh =>
        obtain ⟨elh, hll, hlr⟩ := hl
        obtain ⟨bd1, bd2, bll, blr⟩ := bl
        have Hll := height_eq hll
        have Hlr := height_eq hlr
        have Pll := realHeight_nonneg ll
        have Plr := realHeight_nonneg lr
        simp only [AVL.balanceFactor, Hll, Hlr] at c2
        cases lr with
        | nil => simp only [realHeight] at c2; omega
        | node zv zl zr zh =>
            obtain ⟨ezh, hzl, hzr⟩ := hlr
            obtain ⟨bz1, bz2, bzl, bzr⟩ := blr
            have Hzl := height_eq hzl
            have Hzr := height_eq hzr
            have Pzl := realHeight_nonneg zl
            have Pzr := realHeight_nonneg zr
            simp only [AVL.rotateLeft, AVL.rotateRight, AVL.height, realHeight,
              HeightsOk, BalancedT, Hll, Hzl, Hzr, Hr] at *
            repeat' apply And.intro
            all_goals intros
            all_goals first | assumption | trivial | omega
  · -- left heavy, single right rotation
    rw [Hl, Hr] at c1
    cases l with
    | nil => simp only [realHeight] at c1; omega
    | node lv ll lr lh =>
        obtain ⟨elh, hll, hlr⟩ := hl
        obtain ⟨bd1, bd2, bll, blr⟩ := bl
        have Hll := height_eq hll
        have Hlr := height_eq hlr
        have Pll := realHeight_nonneg ll
        have Plr := realHeight_nonneg lr
        simp only [AVL.balanceFactor, Hll, Hlr] at c2
        simp only [AVL.rotateRight, AVL.height, realHeight, HeightsOk, BalancedT,
          Hll, Hlr, Hr] at *
        repeat' apply And.intro
        all_goals intros
        all_goals first | assumption | trivial | omega
  · -- right heavy, double rotation
    rw [Hl, Hr] at c3
    cases r with
    | nil => simp only [realHeight] at c3; omega
    | node rv rl rr rsh =>
        obtain ⟨erh, hrl, hrr⟩ := hr
        obtain ⟨be1, be2, brl, brr⟩ := br
        have Hrl := height_eq hrl
        have Hrr := height_eq hrr
        have Prl := realHeight_nonneg rl
        have Prr := realHeight_nonneg rr
        simp only [AVL.balanceFactor, Hrl, Hrr] at c4
        cases rl with
        | nil => simp only [realHeight] at c4; omega
        | node wv wl wr wh =>
            obtain ⟨ewh, hwl, hwr⟩ := hrl
            obtain ⟨bw1, bw2, bwl, bwr⟩ := brl
            have Hwl := height_eq hwl
            have Hwr := height_eq hwr
            have Pwl := realHeight_nonneg wl
            have Pwr := realHeight_nonneg wr
            simp only [AVL.rotateRight, AVL.rotateLeft, AVL.height, realHeight,
              HeightsOk, BalancedT, Hwl, Hwr, Hrr, Hl] at *
            repeat' apply And.intro
            all_goals intros
            all_goals first | assumption | trivial | omega
  · -- right heavy, single left rotation
    rw [Hl, Hr] at c3
    cases r with
    | nil => simp only [realHeight] at c3; omega
    | node rv rl rr rsh =>
        obtain ⟨erh, hrl, hrr⟩ := hr
        obtain ⟨be1, be2, brl, brr⟩ := br
        have Hrl := height_eq hrl
        have Hrr := height_eq hrr
        have Prl := realHeight_nonneg rl
        have Prr := realHeight_nonneg rr
        simp only [AVL.balanceFactor, Hrl, Hrr] at c4
        simp only [AVL.rotateLeft, AVL.height, realHeight, HeightsOk, BalancedT,
          Hrl, Hrr, Hl] at *
        repeat' apply And.intro
        all_goals intros
        all_goals first | assumption | trivial | omega
  · -- already balanced: only the height field is recomputed
    rw [Hl, Hr] at c1 c3
    simp only [realHeight, HeightsOk, BalancedT, Hl, Hr]
    repeat' apply And.intro
    all_goals intros
    all_goals first | assumption | trivial | exact Or.inl trivial | omega

/-- Source `AVLTree::insert` preserves all four invariants, grows the
structural height by at most one, and adds exactly the inserted value
to the stored set. -/
theorem insert_spec (value : Int) :
    ∀ t, IsBST t → BalancedT t → HeightsOk t →
    IsBST (AVL.insert t value) ∧ BalancedT (AVL.insert t value) ∧
    HeightsOk (AVL.insert t value) ∧
    realHeight t ≤ realHeight (AVL.insert t value) ∧
    realHeight (AVL.insert t value) ≤ realHeight t + 1 ∧
    (∀ x, x ∈ (AVL.insert t value).inorderTraversal ↔
      x = value ∨ x ∈ t.inorderTraversal)
  | .nil, _, _, _ => by
      simp [AVL.insert, IsBST, BalancedT, HeightsOk, realHeight, ForallTree,
        AVL.inorderTraversal]
  | .node v l r h, hb, hba, hh => by
      obtain ⟨f1, f2, b1, b2⟩ := hb
      obtain ⟨a1, a2, a3, a4⟩ := hba
      obtain ⟨e1, e2, e3⟩ := hh
      have Pl := realHeight_nonneg l
      have Pr := realHeight_nonneg r
      by_cases c1 : value < v
      · obtain ⟨ih1, ih2, ih3, ih4, ih5, ih6⟩ := insert_spec value l b1 a3 e2
        have estep : AVL.insert (.node v l r h) value =
            AVL.balance (.node v (AVL.insert l value) r h) := by
          simp [AVL.insert, c1]
        obtain ⟨s1, s2, s3, s4, s5⟩ :=
          balance_spec v (AVL.insert l value) r h ih3 e3 ih2 a4 (by omega) (by omega)
        rw [estep]
        refine ⟨?_, s2, s1, ?_, ?_, ?_⟩
        · rw [isBST_iff_pairwise, inorder_balance, List.pairwise_append]
          refine ⟨(isBST_iff_pairwise _).mp ih1, ?_, ?_⟩
          · rw [List.pairwise_cons]
            exact ⟨(forallTree_iff _ r).mp f2, (isBST_iff_pairwise r).mp b2⟩
          · intro x hx y hy
            have hxv : x < v := by
              rcases (ih6 x).mp hx with rfl | hx'
              · exact c1
              · exact (forallTree_iff _ l).mp f1 x hx'
            rcases List.mem_cons.mp hy with rfl | hy'
            · exact hxv
            · exact lt_trans hxv ((forallTree_iff _ r).mp f2 y hy')
        · simp only [realHeight]
          rcases s5 with s5 | s5 | s5 <;> omega
        · simp only [realHeight]
          rcases s5 with s5 | s5 | s5 <;> omega
        · intro x
          rw [inorder_balance]
          simp only [List.mem_append, List.mem_cons, ih6, AVL.inorderTraversal]
          tauto
      · by_cases c2 : value > v
        · obtain ⟨ih1, ih2, ih3, ih4, ih5, ih6⟩ := insert_spec value r b2 a4 e3
          have estep : AVL.insert (.node v l r h) value =
              AVL.balance (.node v l (AVL.insert r value) h) := by
            simp [AVL.insert, c1, c2]
          obtain ⟨s1, s2, s3, s4, s5⟩ :=
            balance_spec v l (AVL.insert r value) h e2 ih3 a3 ih2 (by omega) (by omega)
          rw [estep]
          refine ⟨?_, s2, s1, ?_, ?_, ?_⟩
          · rw [isBST_iff_pairwise, inorder_balance, List.pairwise_append]
            refine ⟨(isBST_iff_pairwise l).mp b1, ?_, ?_⟩
            · rw [List.pairwise_cons]
              refine ⟨?_, (isBST_iff_pairwise _).mp ih1⟩
              intro y hy
              rcases (ih6 y).mp hy with rfl | hy'
              · exact c2
              · exact (forallTree_iff _ r).mp f2 y hy'
            · intro x hx y hy
              have hxv : x < v := (forallTree_iff _ l).mp f1 x hx
              rcases List.mem_cons.mp hy with rfl | hy'
              · exact hxv
              · rcases (ih6 y).mp hy' with rfl | hy''
                · exact lt_trans hxv c2
                · exact lt_trans hxv ((forallTree_iff _ r).mp f2 y hy'')
          · simp only [realHeight]
            rcases s5 with s5 | s5 | s5 <;> omega
          · simp only [realHeight]
            rcases s5 with s5 | s5 | s5 <;> omega
          · intro x
            rw [inorder_balance]
            simp only [List.mem_append, List.mem_cons, ih6, AVL.inorderTraversal]
            tauto
        · have hveq : value = v := by omega
          have estep : AVL.insert (.node v l r h) value = .node v l r h := by
            simp [AVL.insert, c1, c2]
          rw [estep]
          refine ⟨⟨f1, f2, b1, b2⟩, ⟨a1, a2, a3, a4⟩, ⟨e1, e2, e3⟩, le_refl _,
            by omega, ?_⟩
          intro x
          simp only [AVL.inorderTraversal, List.mem_append, List.mem_cons]
          constructor
          · intro hx; exact Or.inr hx
          · rintro (rfl | hx)
            · exact Or.inr (Or.inl hveq)
            · exact hx

/-- The `findMin` loop started below a node with value `v0` whose left
subtree `t` is a BST of values all below `v0` returns the least stored
value of that node's subtree. -/
theorem findMinGo_spec : ∀ (v0 : Int) (t : AVL), IsBST t →
    ForallTree (· < v0) t →
    (AVL.findMinGo v0 t = v0 ∨ AVL.findMinGo v0 t ∈ t.inorderTraversal) ∧
    AVL.findMinGo v0 t ≤ v0 ∧
    (∀ x ∈ t.inorderTraversal, AVL.findMinGo v0 t ≤ x)
  | v0, .nil, _, _ => by simp [AVL.findMinGo, AVL.inorderTraversal]
  | v0, .node v' l' r' h', hb, hf => by
      obtain ⟨g1, g2, g3, g4⟩ := hb
      obtain ⟨p1, p2, p3⟩ := hf
      obtain ⟨i1, i2, i3⟩ := findMinGo_spec v' l' g3 g1
      simp only [AVL.findMinGo, AVL.inorderTraversal, List.mem_append,
        List.mem_cons]
      refine ⟨?_, ?_, ?_⟩
      · rcases i1 with h1 | h1
        · exact Or.inr (Or.inr (Or.inl h1))
        · exact Or.inr (Or.inl h1)
      · exact le_of_lt (lt_of_le_of_lt i2 p1)
      · rintro x (hx | rfl | hx)
        · exact i3 x hx
        · exact i2
        · exact le_of_lt (lt_of_le_of_lt i2 ((forallTree_iff _ r').mp g2 x hx))

/-- Source `AVLTree::remove` preserves all four invariants, shrinks the
structural height by at most one, and removes exactly the requested
value from the stored set. -/
theorem remove_spec : ∀ (t : AVL) (value : Int), IsBST t → BalancedT t →
    HeightsOk t →
    IsBST (AVL.remove t value) ∧ BalancedT (AVL.remove t value) ∧
    HeightsOk (AVL.remove t value) ∧
    realHeight t - 1 ≤ realHeight (AVL.remove t value) ∧
    realHeight (AVL.remove t value) ≤ realHeight t ∧
    (∀ x, x ∈ (AVL.remove t value).inorderTraversal ↔
      x ∈ t.inorderTraversal ∧ x ≠ value) := by
  intro t
  induction t with
  | nil => intro value _ _ _; simp [AVL.remove, IsBST, BalancedT, HeightsOk,
      realHeight, AVL.inorderTraversal]
  | node v l r h ihl ihr =>
      intro value hb hba hh
      obtain ⟨f1, f2, b1, b2⟩ := hb
      obtain ⟨a1, a2, a3, a4⟩ := hba
      obtain ⟨e1, e2, e3⟩ := hh
      have Pl := realHeight_nonneg l
      have Pr := realHeight_nonneg r
      by_cases c1 : value < v
      · obtain ⟨ih1, ih2, ih3, ih4, ih5, ih6⟩ := ihl value b1 a3 e2
        have estep : AVL.remove (.node v l r h) value =
            AVL.balance (.node v (AVL.remove l value) r h) := by
          simp [AVL.remove, c1]
        obtain ⟨s1, s2, s3, s4, s5⟩ :=
          balance_spec v (AVL.remove l value) r h ih3 e3 ih2 a4 (by omega) (by omega)
        rw [estep]
        refine ⟨?_, s2, s1, ?_, ?_, ?_⟩
        · rw [isBST_iff_pairwise, inorder_balance, List.pairwise_append]
          refine ⟨(isBST_iff_pairwise _).mp ih1, ?_, ?_⟩
          · rw [List.pairwise_cons]
            exact ⟨(forallTree_iff _ r).mp f2, (isBST_iff_pairwise r).mp b2⟩
          · intro x hx y hy
            have hxv : x < v := (forallTree_iff _ l).mp f1 x ((ih6 x).mp hx).1
            rcases List.mem_cons.mp hy with rfl | hy'
            · exact hxv
            · exact lt_trans hxv ((forallTree_iff _ r).mp f2 y hy')
        · simp only [realHeight]
          rcases s5 with s5 | s5 | s5 <;> omega
        · simp only [realHeight]
          rcases s5 with s5 | s5 | s5 <;> omega
        · intro x
          rw [inorder_balance]
          simp only [List.mem_append, List.mem_cons, ih6, AVL.inorderTraversal]
          constructor
          · rintro (⟨hx, hne⟩ | rfl | hx)
            · exact ⟨Or.inl hx, hne⟩
            · exact ⟨Or.inr (Or.inl rfl), by omega⟩
            · have := (forallTree_iff _ r).mp f2 x hx
              exact ⟨Or.inr (Or.inr hx), by omega⟩
          · rintro ⟨hx | rfl | hx, hne⟩
            · exact Or.inl ⟨hx, hne⟩
            · exact Or.inr (Or.inl rfl)
            · exact Or.inr (Or.inr hx)
      · by_cases c2 : value > v
        · obtain ⟨ih1, ih2, ih3, ih4, ih5, ih6⟩ := ihr value b2 a4 e3
          have estep : AVL.remove (.node v l r h) value =
              AVL.balance (.node v l (AVL.remove r value) h) := by
            simp [AVL.remove, c1, c2]
          obtain ⟨s1, s2, s3, s4, s5⟩ :=
            balance_spec v l (AVL.remove r value) h e2 ih3 a3 ih2 (by omega) (by omega)
          rw [estep]
          refine ⟨?_, s2, s1, ?_, ?_, ?_⟩
          · rw [isBST_iff_pairwise, inorder_balance, List.pairwise_append]
            refine ⟨(isBST_iff_pairwise l).mp b1, ?_, ?_⟩
            · rw [List.pairwise_cons]
              refine ⟨?_, (isBST_iff_pairwise _).mp ih1⟩
              intro y hy
              exact (forallTree_iff _ r).mp f2 y ((ih6 y).mp hy).1
            · intro x hx y hy
              have hxv : x < v := (forallTree_iff _ l).mp f1 x hx
              rcases List.mem_cons.mp hy with rfl | hy'
              · exact hxv
              · exact lt_trans hxv ((forallTree_iff _ r).mp f2 y ((ih6 y).mp hy').1)
          · simp only [realHeight]
            rcases s5 with s5 | s5 | s5 <;> omega
          · simp only [realHeight]
            rcases s5 with s5 | s5 | s5 <;> omega
          · intro x
            rw [inorder_balance]
            simp only [List.mem_append, List.mem_cons, ih6, AVL.inorderTraversal]
            constructor
            · rintro (hx | rfl | ⟨hx, hne⟩)
              · have := (forallTree_iff _ l).mp f1 x hx
                exact ⟨Or.inl hx, by omega⟩
              · exact ⟨Or.inr (Or.inl rfl), by omega⟩
              · exact ⟨Or.inr (Or.inr hx), hne⟩
            · rintro ⟨hx | rfl | hx, hne⟩
              · exact Or.inl hx
              · exact Or.inr (Or.inl rfl)
              · exact Or.inr (Or.inr ⟨hx, hne⟩)
        · have hveq : value = v := by omega
          cases l with
          | nil =>
              have estep : AVL.remove (.node v .nil r h) value = r := by
                simp [AVL.remove, c1, c2]
              rw [estep]
              simp only [realHeight, AVL.inorderTraversal, List.nil_append,
                List.mem_cons] at *
              refine ⟨b2, a4, e3, by omega, by omega, ?_⟩
              intro x
              constructor
              · intro hx
                have := (forallTree_iff _ r).mp f2 x hx
                exact ⟨Or.inr hx, by omega⟩
              · rintro ⟨rfl | hx, hne⟩
                · omega
                · exact hx
          | node lv ll lr lh =>
              cases r with
              | nil =>
                  have estep : AVL.remove (.node v (.node lv ll lr lh) .nil h)
                      value = .node lv ll lr lh := by
                    simp [AVL.remove, c1, c2]
                  rw [estep]
                  have etop : (AVL.node v (.node lv ll lr lh) .nil h).inorderTraversal
                      = (AVL.node lv ll lr lh).inorderTraversal ++ [v] := rfl
                  refine ⟨b1, a3, e2, ?_, ?_, ?_⟩
                  · simp only [realHeight] at *
                    omega
                  · simp only [realHeight] at *
                    omega
                  · intro x
                    rw [etop]
                    simp only [List.mem_append, List.mem_singleton]
                    constructor
                    · intro hx
                      have := (forallTree_iff _ _).mp f1 x hx
                      exact ⟨Or.inl hx, by omega⟩
                    · rintro ⟨hx | hxe, hne⟩
                      · exact hx
                      · exact absurd (hxe.trans hveq.symm) hne
              | node rv rl rr rsh =>
                  obtain ⟨g1, g2, g3, g4⟩ := b2
                  obtain ⟨i1, i2, i3⟩ := findMinGo_spec rv rl g3 g1
                  set succ := AVL.findMinGo rv rl with hsucc
                  have smem : succ ∈ (AVL.node rv rl rr rsh).inorderTraversal := by
                    simp only [AVL.inorderTraversal, List.mem_append, List.mem_cons]
                    rcases i1 with h1 | h1
                    · exact Or.inr (Or.inl h1)
                    · exact Or.inl h1
                  have smin : ∀ x ∈ (AVL.node rv rl rr rsh).inorderTraversal,
                      succ ≤ x := by
                    simp only [AVL.inorderTraversal, List.mem_append, List.mem_cons]
                    rintro x (hx | rfl | hx)
                    · exact i3 x hx
                    · exact i2
                    · exact le_of_lt (lt_of_le_of_lt i2
                        ((forallTree_iff _ rr).mp g2 x hx))
                  have vsucc : v < succ := (forallTree_iff _ _).mp f2 succ smem
                  obtain ⟨ih1, ih2, ih3, ih4, ih5, ih6⟩ :=
                    ihr succ ⟨g1, g2, g3, g4⟩ a4 e3
                  have estep : AVL.remove (.node v (.node lv ll lr lh)
                      (.node rv rl rr rsh) h) value =
                      AVL.balance (.node succ (.node lv ll lr lh)
                        (AVL.remove (.node rv rl rr rsh) succ) h) := by
                    simp [AVL.remove, c1, c2, hsucc]
                  obtain ⟨s1, s2, s3, s4, s5⟩ :=
                    balance_spec succ (.node lv ll lr lh)
                      (AVL.remove (.node rv rl rr rsh) succ) h e2 ih3 a3 ih2
                      (by omega) (by omega)
                  rw [estep]
                  refine ⟨?_, s2, s1, ?_, ?_, ?_⟩
                  · rw [isBST_iff_pairwise, inorder_balance, List.pairwise_append]
                    refine ⟨(isBST_iff_pairwise _).mp b1, ?_, ?_⟩
                    · rw [List.pairwise_cons]
                      refine ⟨?_, (isBST_iff_pairwise _).mp ih1⟩
                      intro y hy
                      obtain ⟨hyR, hyne⟩ := (ih6 y).mp hy
                      exact lt_of_le_of_ne (smin y hyR) (Ne.symm hyne)
                    · intro x hx y hy
                      have hxv : x < v := (forallTree_iff _ _).mp f1 x hx
                      rcases List.mem_cons.mp hy with rfl | hy'
                      · exact lt_trans hxv vsucc
                      · have hyR := ((ih6 y).mp hy').1
                        exact lt_trans hxv ((forallTree_iff _ _).mp f2 y hyR)
                  · simp only [realHeight] at *
                    rcases s5 with s5 | s5 | s5 <;> omega
                  · simp only [realHeight] at *
                    rcases s5 with s5 | s5 | s5 <;> omega
                  · intro x
                    rw [inorder_balance]
                    have etop : (AVL.node v (.node lv ll lr lh)
                        (.node rv rl rr rsh) h).inorderTraversal
                        = (AVL.node lv ll lr lh).inorderTraversal ++
                          v :: (AVL.node rv rl rr rsh).inorderTraversal := rfl
                    rw [etop]
                    simp only [List.mem_append, List.mem_cons, ih6]
                    constructor
                    · rintro (hx | hxe | ⟨hx, hne⟩)
                      · have := (forallTree_iff _ _).mp f1 x hx
                        exact ⟨Or.inl hx, by omega⟩
                      · subst hxe
                        have := vsucc
                        exact ⟨Or.inr (Or.inr smem), by omega⟩
                      · have : v < x := (forallTree_iff _ _).mp f2 x hx
                        exact ⟨Or.inr (Or.inr hx), by omega⟩
                    · rintro ⟨hx | hxe | hx, hne⟩
                      · exact Or.inl hx
                      · exact absurd (hxe.trans hveq.symm) hne
                      · by_cases hxs : x = succ
                        · exact Or.inr (Or.inl hxs)
                        · exact Or.inr (Or.inr ⟨hx, hxs⟩)

/-- Folding public operations over any well-formed tree preserves the
invariants. -/
theorem foldl_applyOp_wf (ops : List Op) : ∀ t, IsBST t → BalancedT t →
    HeightsOk t →
    IsBST (ops.foldl applyOp t) ∧ BalancedT (ops.foldl applyOp t) ∧
    HeightsOk (ops.foldl applyOp t) := by
  induction ops with
  | nil => intro t h1 h2 h3; exact ⟨h1, h2, h3⟩
  | cons op ops ih =>
      intro t h1 h2 h3
      rw [List.foldl_cons]
      cases op with
      | ins v =>
          obtain ⟨q1, q2, q3, -, -, -⟩ := insert_spec v t h1 h2 h3
          exact ih _ q1 q2 q3
      | del v =>
          obtain ⟨q1, q2, q3, -, -, -⟩ := remove_spec t v h1 h2 h3
          exact ih _ q1 q2 q3

theorem run_wf (ops : List Op) :
    IsBST (run ops) ∧ BalancedT (run ops) ∧ HeightsOk (run ops) :=
  foldl_applyOp_wf ops .nil trivial trivial trivial

/-- Claim C1: after every public mutating operation on any tree obtained
from the empty tree by a sequence of inserts and removes, the tree
satisfies BST order, AVL balance of the structural subtree heights
(difference at most 1), correctness of every stored height field, and
holds no two equal values. -/
theorem claim_C1 (ops : List Op) :
    IsBST (run ops) ∧ BalancedT (run ops) ∧ HeightsOk (run ops) ∧
    (run ops).inorderTraversal.Nodup := by
  obtain ⟨h1, h2, h3⟩ := run_wf ops
  exact ⟨h1, h2, h3, nodup_of_isBST h1⟩

/-- Claim C2: the balancing step computes `bf = height(left) −
height(right)` after recomputing the node's height field; if `bf > 1` it
right-rotates the node, first left-rotating the left child exactly when
`balanceFactor(left) < 0`; if `bf < −1` it left-rotates the node, first
right-rotating the right child exactly when `balanceFactor(right) > 0`;
otherwise it returns the node with only the height field recomputed. -/
theorem claim_C2 (v : Int) (l r : AVL) (h : Int) :
    (1 < AVL.height l - AVL.height r →
      AVL.balance (.node v l r h) =
        AVL.rotateRight (.node v
          (if AVL.balanceFactor l < 0 then AVL.rotateLeft l else l) r
          (1 + max (AVL.height l) (AVL.height r)))) ∧
    (AVL.height l - AVL.height r < -1 →
      AVL.balance (.node v l r h) =
        AVL.rotateLeft (.node v l
          (if 0 < AVL.balanceFactor r then AVL.rotateRight r else r)
          (1 + max (AVL.height l) (AVL.height r)))) ∧
    (-1 ≤ AVL.height l - AVL.height r → AVL.height l - AVL.height r ≤ 1 →
      AVL.balance (.node v l r h) = AVL.updateHeight (.node v l r h)) := by
  refine ⟨?_, ?_, ?_⟩
  · intro hc
    simp only [AVL.balance]
    rw [if_pos hc]
  · intro hc
    simp only [AVL.balance]
    rw [if_neg (by omega), if_pos hc]
  · intro hc1 hc2
    simp only [AVL.balance, AVL.updateHeight]
    rw [if_neg (by omega), if_neg (by omega)]

theorem claim_C2_witness :
    AVL.balance (.node 3 (.node 2 (.node 1 .nil .nil 1) .nil 2) .nil 3) =
      AVL.rotateRight (.node 3
        (if AVL.balanceFactor (AVL.node 2 (.node 1 .nil .nil 1) .nil 2) < 0
          then AVL.rotateLeft (AVL.node 2 (.node 1 .nil .nil 1) .nil 2)
          else AVL.node 2 (.node 1 .nil .nil 1) .nil 2) .nil
        (1 + max (AVL.height (AVL.node 2 (.node 1 .nil .nil 1) .nil 2))
          (AVL.height .nil))) ∧
    AVL.balance (.node 1 .nil .nil 5) = AVL.updateHeight (.node 1 .nil .nil 5) :=
  ⟨(claim_C2 3 (.node 2 (.node 1 .nil .nil 1) .nil 2) .nil 3).1 (by decide),
    (claim_C2 1 .nil .nil 5).2.2 (by decide) (by decide)⟩

/-- Claim C3: removal of a node with two non-empty children copies the
in-order successor's value (leftmost value of the right subtree) into
the node and removes that value from the right subtree; concretely,
after inserting 10, 20, 30, 40, 50, 25 and removing 30 the root is 40,
the right subtree is the single node 50, the left subtree 20(10, 25) is
unchanged, and the in-order traversal is 10 20 25 40 50. -/
theorem claim_C3 :
    (∀ (v h lv lh rv rh : Int) (ll lr rl rr : AVL),
      AVL.remove (.node v (.node lv ll lr lh) (.node rv rl rr rh) h) v =
        AVL.balance (.node (AVL.findMinGo rv rl) (.node lv ll lr lh)
          (AVL.remove (.node rv rl rr rh) (AVL.findMinGo rv rl)) h)) ∧
    AVL.remove (run [Op.ins 10, Op.ins 20, Op.ins 30, Op.ins 40, Op.ins 50,
        Op.ins 25]) 30 =
      AVL.node 40
        (AVL.node 20 (AVL.node 10 .nil .nil 1) (AVL.node 25 .nil .nil 1) 2)
        (AVL.node 50 .nil .nil 1) 3 ∧
    (AVL.remove (run [Op.ins 10, Op.ins 20, Op.ins 30, Op.ins 40, Op.ins 50,
        Op.ins 25]) 30).inorderTraversal = [10, 20, 25, 40, 50] := by
  refine ⟨?_, by decide, by decide⟩
  intro v h lv lh rv rh ll lr rl rr
  simp [AVL.remove, lt_irrefl]

/-- Claim C4 is false: inserting an absent value and removing it again
does not restore the original tree node for node.  Counterexample: the
reachable tree `T = run [ins 20, ins 10]`, with `5 ∉ T`; inserting 5
triggers a right rotation that removal does not undo. -/
theorem claim_C4_counterexample :
    (5 : Int) ∉ (run [Op.ins 20, Op.ins 10]).inorderTraversal ∧
    AVL.remove (AVL.insert (run [Op.ins 20, Op.ins 10]) 5) 5 ≠
      run [Op.ins 20, Op.ins 10] := by decide

/-- Claim C4 (amended): for every reachable tree `T` and value `v` not in
`T`, `remove (insert T v) v` has exactly the contents of `T` (equal
in-order lists), though not necessarily the same node-for-node shape. -/
theorem claim_C4_amended (ops : List Op) (v : Int)
    (hv : v ∉ (run ops).inorderTraversal) :
    (AVL.remove (AVL.insert (run ops) v) v).inorderTraversal =
      (run ops).inorderTraversal := by
  obtain ⟨h1, h2, h3⟩ := run_wf ops
  obtain ⟨q1, q2, q3, -, -, q6⟩ := insert_spec v (run ops) h1 h2 h3
  obtain ⟨w1, -, -, -, -, w6⟩ :=
    remove_spec (AVL.insert (run ops) v) v q1 q2 q3
  have n1 : (AVL.remove (AVL.insert (run ops) v) v).inorderTraversal.Nodup :=
    nodup_of_isBST w1
  have n2 : (run ops).inorderTraversal.Nodup := nodup_of_isBST h1
  have hperm : (AVL.remove (AVL.insert (run ops) v) v).inorderTraversal.Perm
      (run ops).inorderTraversal := by
    rw [List.perm_ext_iff_of_nodup n1 n2]
    intro a
    rw [w6, q6 a]
    constructor
    · rintro ⟨rfl | ha, hne⟩
      · exact absurd rfl hne
      · exact ha
    · intro ha
      exact ⟨Or.inr ha, fun hav => hv (hav ▸ ha)⟩
  have s1 : (AVL.remove (AVL.insert (run ops) v) v).inorderTraversal.Sorted
      (· ≤ ·) := ((isBST_iff_pairwise _).mp w1).imp le_of_lt
  have s2 : (run ops).inorderTraversal.Sorted (· ≤ ·) :=
    ((isBST_iff_pairwise _).mp h1).imp le_of_lt
  exact List.eq_of_perm_of_sorted hperm s1 s2

theorem claim_C4_amended_witness :
    (AVL.remove (AVL.insert (run [Op.ins 20, Op.ins 10]) 5) 5).inorderTraversal
      = (run [Op.ins 20, Op.ins 10]).inorderTraversal :=
  claim_C4_amended [Op.ins 20, Op.ins 10] 5 (by decide)

/-- Every fold of inserts over a well-formed tree stays well formed and
stores exactly the old contents plus the inserted values. -/
theorem foldl_insert_spec (l : List Int) : ∀ t, IsBST t → BalancedT t →
    HeightsOk t →
    IsBST (l.foldl AVL.insert t) ∧ BalancedT (l.foldl AVL.insert t) ∧
    HeightsOk (l.foldl AVL.insert t) ∧
    (∀ x, x ∈ (l.foldl AVL.insert t).inorderTraversal ↔
      x ∈ l ∨ x ∈ t.inorderTraversal) := by
  induction l with
  | nil =>
      intro t h1 h2 h3
      refine ⟨h1, h2, h3, ?_⟩
      simp
  | cons v l ih =>
      intro t h1 h2 h3
      rw [List.foldl_cons]
      obtain ⟨q1, q2, q3, -, -, q6⟩ := insert_spec v t h1 h2 h3
      obtain ⟨w1, w2, w3, w6⟩ := ih (AVL.insert t v) q1 q2 q3
      refine ⟨w1, w2, w3, ?_⟩
      intro x
      rw [w6 x, q6 x, List.mem_cons]
      tauto

/-- Claim C5: for every (well-formed) tree the in-order visitor sees the
stored elements exactly once each in strictly ascending order, and
inserting any duplicate-free list — hence any permutation of a finite
set S — into the empty tree produces exactly S in sorted order. -/
theorem claim_C5 :
    (∀ t : AVL, IsBST t → t.inorderTraversal.Pairwise (· < ·)) ∧
    (∀ l : List Int, l.Nodup →
      (l.foldl AVL.insert .nil).inorderTraversal =
        l.insertionSort (· ≤ ·)) := by
  constructor
  · intro t h
    exact (isBST_iff_pairwise t).mp h
  · intro l hnd
    obtain ⟨h1, -, -, h6⟩ := foldl_insert_spec l .nil trivial trivial trivial
    have n1 : (l.foldl AVL.insert .nil).inorderTraversal.Nodup :=
      nodup_of_isBST h1
    have n2 : (l.insertionSort (· ≤ ·)).Nodup :=
      ((List.perm_insertionSort (· ≤ ·) l).nodup_iff).mpr hnd
    have hperm : (l.foldl AVL.insert .nil).inorderTraversal.Perm
        (l.insertionSort (· ≤ ·)) := by
      rw [List.perm_ext_iff_of_nodup n1 n2]
      intro a
      rw [h6 a, (List.perm_insertionSort (· ≤ ·) l).mem_iff]
      simp [AVL.inorderTraversal]
    have s1 : (l.foldl AVL.insert .nil).inorderTraversal.Sorted (· ≤ ·) :=
      ((isBST_iff_pairwise _).mp h1).imp le_of_lt
    have s2 : (l.insertionSort (· ≤ ·)).Sorted (· ≤ ·) :=
      List.sorted_insertionSort (· ≤ ·) l
    exact List.eq_of_perm_of_sorted hperm s1 s2

theorem claim_C5_witness :
    (run [Op.ins 2, Op.ins 1]).inorderTraversal.Pairwise (· < ·) ∧
    ([3, 1, 2].foldl AVL.insert .nil).inorderTraversal =
      [3, 1, 2].insertionSort (· ≤ ·) :=
  ⟨claim_C5.1 (run [Op.ins 2, Op.ins 1]) (by decide),
    claim_C5.2 [3, 1, 2] (by decide)⟩

/-- Source `AVLTree::search` on a BST finds exactly the stored element equal to
the key. -/
theorem search_spec (value : Int) : ∀ t, IsBST t →
    AVL.search t value =
      if value ∈ t.inorderTraversal then some value else none
  | .nil, _ => by simp [AVL.search, AVL.inorderTraversal]
  | .node v l r h, hb => by
      obtain ⟨f1, f2, b1, b2⟩ := hb
      have etop : (AVL.node v l r h).inorderTraversal
          = l.inorderTraversal ++ v :: r.inorderTraversal := rfl
      by_cases c1 : value < v
      · have estep : AVL.search (.node v l r h) value = AVL.search l value := by
          simp [AVL.search, c1]
        rw [estep, search_spec value l b1, etop]
        by_cases hm : value ∈ l.inorderTraversal
        · rw [if_pos hm, if_pos (List.mem_append_left _ hm)]
        · have hnm : value ∉ l.inorderTraversal ++ v :: r.inorderTraversal := by
            simp only [List.mem_append, List.mem_cons]
            rintro (hx | rfl | hx)
            · exact hm hx
            · omega
            · have := (forallTree_iff _ r).mp f2 value hx
              omega
          rw [if_neg hm, if_neg hnm]
      · by_cases c2 : value > v
        · have estep : AVL.search (.node v l r h) value = AVL.search r value := by
            simp [AVL.search, c1, c2]
          rw [estep, search_spec value r b2, etop]
          by_cases hm : value ∈ r.inorderTraversal
          · rw [if_pos hm,
              if_pos (List.mem_append_right _ (List.mem_cons_of_mem _ hm))]
          · have hnm : value ∉ l.inorderTraversal ++ v :: r.inorderTraversal := by
              simp only [List.mem_append, List.mem_cons]
              rintro (hx | rfl | hx)
              · have := (forallTree_iff _ l).mp f1 value hx
                omega
              · omega
              · exact hm hx
            rw [if_neg hm, if_neg hnm]
        · have hveq : value = v := by omega
          have estep : AVL.search (.node v l r h) value = some v := by
            simp [AVL.search, c1, c2]
          have hmm : value ∈ l.inorderTraversal ++ v :: r.inorderTraversal := by
            apply List.mem_append_right
            rw [hveq]
            exact List.mem_cons_self _ _
          rw [estep, etop, if_pos hmm, hveq]

/-- Claim C6: `contains(v)` is true exactly when an equal element is
stored, `get(v)` returns the stored element as an optional exactly when
present (empty otherwise), and `get` is non-empty exactly when
`contains` holds. -/
theorem claim_C6 (t : AVL) (v : Int) (hb : IsBST t) :
    (AVL.contains t v = true ↔ v ∈ t.inorderTraversal) ∧
    (AVL.get t v = if v ∈ t.inorderTraversal then some v else none) ∧
    (AVL.get t v).isSome = AVL.contains t v := by
  have hs := search_spec v t hb
  refine ⟨?_, hs, rfl⟩
  rw [AVL.contains, hs]
  by_cases hm : v ∈ t.inorderTraversal <;> simp [hm]

theorem claim_C6_witness :
    (AVL.contains (run [Op.ins 10, Op.ins 20, Op.ins 30]) 30 = true ↔
      (30 : Int) ∈ (run [Op.ins 10, Op.ins 20, Op.ins 30]).inorderTraversal) ∧
    (AVL.get (run [Op.ins 10, Op.ins 20, Op.ins 30]) 30 =
      if (30 : Int) ∈ (run [Op.ins 10, Op.ins 20, Op.ins 30]).inorderTraversal
        then some 30 else none) ∧
    (AVL.get (run [Op.ins 10, Op.ins 20, Op.ins 30]) 30).isSome =
      AVL.contains (run [Op.ins 10, Op.ins 20, Op.ins 30]) 30 :=
  claim_C6 (run [Op.ins 10, Op.ins 20, Op.ins 30]) 30 (by decide)

/-- Source `TreePrinter::TreeLine`: one rendered row of text together with the
signed column offsets (`int`) of its first and last character relative
to the centerline of the subtree it belongs to. -/
structure TreeLine : Type where
  line : String
  leftOffset : Int
  rightOffset : Int
deriving DecidableEq

/-- Source `TreePrinter::spaces`: `std::string(std::max(0, n), ' ')`. -/
def spaces (n : Int) : String :=
  String.mk (List.replicate (max 0 n).toNat ' ')

/-- Source `TreePrinter::minLeftOffset`: minimum of all left offsets, starting
from the first line's (0 for an empty list). -/
def minLeftOffset (ls : List TreeLine) : Int :=
  match ls with
  | [] => 0
  | l0 :: _ => ls.foldl (fun m t => min m t.leftOffset) l0.leftOffset

/-- Source `TreePrinter::maxRightOffset`. -/
def maxRightOffset (ls : List TreeLine) : Int :=
  match ls with
  | [] => 0
  | l0 :: _ => ls.foldl (fun m t => max m t.rightOffset) l0.rightOffset

/-- Source `TreePrinter::printTreeLines`, the output stream modelled as the
list of lines written to it: each tree line is padded on the left to
`minLeftOffset` and on the right to `maxRightOffset`. -/
def printTreeLines (ls : List TreeLine) : List String :=
  if ls.isEmpty then []
  else
    let minLeft := minLeftOffset ls
    let maxRight := maxRightOffset ls
    ls.map fun t =>
      spaces (-(minLeft - t.leftOffset)) ++ t.line ++
        spaces (maxRight - t.rightOffset)

/-- Conversion of a 64-bit unsigned value to a 32-bit two's-complement
`int`, i.e. reduction modulo `2^32` into `[-2^31, 2^31)`. -/
def toInt32 (n : Nat) : Int :=
  if n % 2 ^ 32 < 2 ^ 31 then ((n % 2 ^ 32 : Nat) : Int)
  else ((n % 2 ^ 32 : Nat) : Int) - 2 ^ 32

/-- The root line's left offset: `-(label.length() - 1) / 2` evaluated
in unsigned `size_t` arithmetic (modulo `2^64`, unsigned division) and
then converted to `int`, exactly as at line 100 of the source. -/
def rootLeftOffset (len : Nat) : Int :=
  toInt32 ((2 ^ 64 - (len + 2 ^ 64 - 1) % 2 ^ 64) % 2 ^ 64 / 2)

/-- The root line's right offset: `label.length() / 2` (unsigned
division) converted to `int`. -/
def rootRightOffset (len : Nat) : Int :=
  toInt32 (len % 2 ^ 64 / 2)

/-- The `maxRootSpacing` loop: maximum over the overlapping prefix rows
of `left[i].rightOffset - right[i].leftOffset`, starting from 0. -/
def maxRootSpacingOf (L R : List TreeLine) : Int :=
  ((L.zip R).map fun p => p.1.rightOffset - p.2.leftOffset).foldl max 0

/-- Source `rootSpacing = maxRootSpacing + hspace`, incremented by one when
even. -/
def rootSpacingOf (hs m : Int) : Int :=
  if (m + hs) % 2 = 0 then m + hs + 1 else m + hs

/-- Source `adjustedRootSpacing`, used when joining overlapping rows:
`rootSpacing`, except 1 (squared) or 3 (sloped) when `rootSpacing` is 1. -/
def adjustedRootSpacingOf (sq : Bool) (rs : Int) : Int :=
  if rs = 1 then (if sq then 1 else 3) else rs

/-- Shifting the remaining rows of one subtree by its adjust, as the
join loop does once the other subtree has no rows left. -/
def shiftLines (adj : Int) (ls : List TreeLine) : List TreeLine :=
  ls.map fun t => ⟨t.line, t.leftOffset + adj, t.rightOffset + adj⟩

/-- The row-joining loop of `buildTreeLines` (`for i < maxCount`): rows
with only one side are shifted by that side's adjust; rows present on
both sides are concatenated with the adjusted spacing between them. -/
def mergeLines (lAdj rAdj ars : Int) :
    List TreeLine → List TreeLine → List TreeLine
  | [], R => shiftLines rAdj R
  | ll0 :: ls, [] => shiftLines lAdj (ll0 :: ls)
  | ll0 :: ls, rl0 :: rs =>
      ⟨ll0.line ++ spaces (ars - ll0.rightOffset + rl0.leftOffset) ++ rl0.line,
        ll0.leftOffset + lAdj, rl0.rightOffset + rAdj⟩ ::
        mergeLines lAdj rAdj ars ls rs

/-- A binary tree as the renderer observes it through its three
caller-supplied accessors `label` / `left` / `right`. -/
inductive BTree : Type
  | nil : BTree
  | node (label : String) (left : BTree) (right : BTree) : BTree
deriving DecidableEq

/-- Source `TreePrinter::buildTreeLines`: recursively build both subtrees'
lines, compute the root spacing, emit the root label line, the branch
row(s) of the applicable case, and join the children's rows. -/
def buildTreeLines (sq lr : Bool) (hs : Int) : BTree → List TreeLine
  | .nil => []
  | .node label l r =>
      let leftLines := buildTreeLines sq lr hs l
      let rightLines := buildTreeLines sq lr hs r
      let rootSpacing := rootSpacingOf hs (maxRootSpacingOf leftLines rightLines)
      let rootLine : TreeLine :=
        ⟨label, rootLeftOffset label.length, rootRightOffset label.length⟩
      let branchInfo : List TreeLine × Int × Int :=
        if leftLines.isEmpty then
          if rightLines.isEmpty then ([], 0, 0)
          else if sq then
            if lr then ([⟨"|", 0, 0⟩], 0, 0)
            else ([⟨"+--+", 0, 3⟩], 0, 3)
          else ([⟨"\\", 1, 1⟩], 0, 2)
        else if rightLines.isEmpty then
          if sq then
            if lr then ([⟨"|", 0, 0⟩], 0, 0)
            else ([⟨"+--+", -3, 0⟩], -3, 0)
          else ([⟨"/", -1, -1⟩], -2, 0)
        else
          if sq then
            let adjust := rootSpacing / 2 + 1
            let horizontal := String.mk (List.replicate (rootSpacing / 2).toNat '-')
            ([⟨"+" ++ horizontal ++ "+" ++ horizontal ++ "+", -adjust, adjust⟩],
              -adjust, adjust)
          else if rootSpacing = 1 then ([⟨"/ \\", -1, 1⟩], -2, 2)
          else
            ((List.range (rootSpacing / 2).toNat).map fun j =>
                let i : Int := 2 * j + 1
                ⟨"/" ++ spaces i ++ "\\", -((i + 1) / 2), (i + 1) / 2⟩,
              -(rootSpacing / 2 + 1), rootSpacing / 2 + 1)
      rootLine :: branchInfo.1 ++
        mergeLines branchInfo.2.1 branchInfo.2.2
          (adjustedRootSpacingOf sq rootSpacing) leftLines rightLines
termination_by structural t => t

/-- Source `TreePrinter::printTree`: build the lines and print them. -/
def printTree (sq lr : Bool) (hs : Int) (root : BTree) : List String :=
  printTreeLines (buildTreeLines sq lr hs root)

example : buildTreeLines false false 2
    (.node "A" (.node "B" .nil .nil) (.node "C" .nil .nil)) =
    [⟨"A", 0, 0⟩, ⟨"/ \\", -1, 1⟩, ⟨"B   C", -2, 2⟩] := by decide

example : printTree false false 2
    (.node "A" (.node "B" .nil .nil) (.node "C" .nil .nil)) =
    ["  A  ", " / \\ ", "B   C"] := by decide

theorem foldl_max_init_le (a : Int) : ∀ l : List Int, a ≤ l.foldl max a
  | [] => le_refl a
  | x :: xs => le_trans (le_max_left a x) (foldl_max_init_le (max a x) xs)

theorem maxRootSpacingOf_nonneg (L R : List TreeLine) :
    0 ≤ maxRootSpacingOf L R :=
  foldl_max_init_le 0 _

/-- Row `i` of the join loop, when both subtrees still have an `i`-th
row: the texts are concatenated around `adjustedRootSpacing −
left[i].rightOffset + right[i].leftOffset` spaces. -/
theorem mergeLines_get (lAdj rAdj ars : Int) :
    ∀ (L R : List TreeLine) (i : Nat) (lL rL : TreeLine),
      L.get? i = some lL → R.get? i = some rL →
      (mergeLines lAdj rAdj ars L R).get? i =
        some ⟨lL.line ++ spaces (ars - lL.rightOffset + rL.leftOffset) ++
            rL.line, lL.leftOffset + lAdj, rL.rightOffset + rAdj⟩
  | [], _, i, _, _, hL, _ => by simp at hL
  | _ :: _, [], i, _, _, _, hR => by simp at hR
  | l0 :: ls, r0 :: rs, 0, lL, rL, hL, hR => by
      simp only [List.get?_cons_zero, Option.some.injEq] at hL hR
      subst hL
      subst hR
      simp [mergeLines]
  | l0 :: ls, r0 :: rs, i + 1, lL, rL, hL, hR => by
      rw [List.get?_cons_succ] at hL hR
      simp only [mergeLines, List.get?_cons_succ]
      exact mergeLines_get lAdj rAdj ars ls rs i lL rL hL hR

/-- Claim C7 concerns line 100 of the source, `TreeLine(rootLabel,
-(rootLabel.length() - 1) / 2, rootLabel.length() / 2)`: under the
unsigned (modulo `2^64`) evaluation the claim itself prescribes, the
left offset comes out as `−⌊len/2⌋`, which agrees with the specified
`−⌊(len−1)/2⌋` at odd lengths (1 ↦ 0, 5 ↦ −2) but differs at every even
length: length 2 gives −1 where the specification says 0, 4 gives −2,
6 gives −3.  A two-character label hence spans offsets (−1, 1), a
three-column window for two characters, contradicting the documented
TreeLine contract (`leftOffset`/`rightOffset` are the columns of the
first and last character). -/
theorem claim_C7 :
    rootRightOffset 2 = 1 ∧ rootRightOffset 5 = 2 ∧
    rootLeftOffset 1 = 0 ∧ rootLeftOffset 5 = -2 ∧
    rootLeftOffset 2 = -1 ∧ rootLeftOffset 4 = -2 ∧ rootLeftOffset 6 = -3 ∧
    buildTreeLines false false 2 (.node "AB" .nil .nil) = [⟨"AB", -1, 1⟩] := by
  decide

/-- Claim C8 counterexample: with `hspace = 2` and the two non-empty
sibling subtrees "B" and "C" under "A", the (only, hence tightest)
overlap row of the merged output carries `spaces 3` — three blank
columns, not two — because `rootSpacing = 0 + 2` is even and is bumped
to 3. -/
theorem claim_C8_counterexample :
    buildTreeLines false false 2
        (.node "A" (.node "B" .nil .nil) (.node "C" .nil .nil)) =
      [⟨"A", 0, 0⟩, ⟨"/ \\", -1, 1⟩, ⟨"B" ++ spaces 3 ++ "C", -2, 2⟩] ∧
    spaces 3 ≠ spaces 2 := by
  decide

/-- Claim C8 (amended): on the tightest overlap row (the row attaining
`maxRootSpacing`) the merged output puts exactly `g = adjustedRootSpacing
− maxRootSpacing` blank columns between the two subtree texts, and for
`hspace = k ≥ 1` this `g` equals `k` when `maxRootSpacing + k` is odd
and not 1, equals `k + 1` when `maxRootSpacing + k` is even, equals 1
(squared) or 3 (sloped) when `maxRootSpacing + k = 1`, and always lies
between `k` and `k + 2`. -/
theorem claim_C8_amended (sq : Bool) (hs lAdj rAdj g : Int)
    (L R : List TreeLine) (i : Nat) (lL rL : TreeLine)
    (hk : 1 ≤ hs) (hL : L.get? i = some lL) (hR : R.get? i = some rL)
    (ht : lL.rightOffset - rL.leftOffset = maxRootSpacingOf L R)
    (hg : g = adjustedRootSpacingOf sq (rootSpacingOf hs (maxRootSpacingOf L R))
      - maxRootSpacingOf L R) :
    (mergeLines lAdj rAdj
        (adjustedRootSpacingOf sq (rootSpacingOf hs (maxRootSpacingOf L R)))
        L R).get? i =
      some ⟨lL.line ++ spaces g ++ rL.line,
        lL.leftOffset + lAdj, rL.rightOffset + rAdj⟩ ∧
    hs ≤ g ∧ g ≤ hs + 2 ∧
    ((maxRootSpacingOf L R + hs) % 2 ≠ 0 → maxRootSpacingOf L R + hs ≠ 1 →
      g = hs) ∧
    ((maxRootSpacingOf L R + hs) % 2 = 0 → g = hs + 1) ∧
    (maxRootSpacingOf L R + hs = 1 → g = if sq then 1 else 3) := by
  have hm := maxRootSpacingOf_nonneg L R
  have h1 := mergeLines_get lAdj rAdj
    (adjustedRootSpacingOf sq (rootSpacingOf hs (maxRootSpacingOf L R)))
    L R i lL rL hL hR
  constructor
  · rw [h1]
    have e : adjustedRootSpacingOf sq (rootSpacingOf hs (maxRootSpacingOf L R))
        - lL.rightOffset + rL.leftOffset = g := by omega
    rw [e]
  · subst hg
    simp only [adjustedRootSpacingOf, rootSpacingOf]
    split_ifs <;> refine ⟨?_, ?_, ?_, ?_, ?_⟩ <;> intros <;> omega

theorem claim_C8_amended_witness :
    (mergeLines (-2) 2
        (adjustedRootSpacingOf false
          (rootSpacingOf 2 (maxRootSpacingOf [⟨"B", 0, 0⟩] [⟨"C", 0, 0⟩])))
        [⟨"B", 0, 0⟩] [⟨"C", 0, 0⟩]).get? 0 =
      some ⟨"B" ++ spaces 3 ++ "C", -2, 2⟩ ∧ (2 : Int) ≤ 3 :=
  have h := claim_C8_amended false 2 (-2) 2 3 [⟨"B", 0, 0⟩] [⟨"C", 0, 0⟩] 0
    ⟨"B", 0, 0⟩ ⟨"C", 0, 0⟩ (by decide) (by decide) (by decide) (by decide)
    (by decide)
  ⟨h.1, h.2.1⟩

/-- Claim C9: the renderer is total on tree shape — every built TreeLine
yields exactly one printed line, for any tree, labels, and option
setting — and printing an empty tree (null root) writes zero lines. -/
theorem claim_C9 :
    (∀ (sq lr : Bool) (hs : Int) (t : BTree),
      (printTree sq lr hs t).length = (buildTreeLines sq lr hs t).length) ∧
    (∀ (sq lr : Bool) (hs : Int), printTree sq lr hs .nil = []) := by
  constructor
  · intro sq lr hs t
    rw [printTree, printTreeLines]
    cases hbt : buildTreeLines sq lr hs t with
    | nil => simp
    | cons a as => simp
  · intro sq lr hs
    rfl

/-- Claim C10: a node with no left and no right child produces exactly
one TreeLine, whose text is precisely the node's label and with no
branch row; printing a single-node tree therefore writes exactly one
line, the label itself (no padding). -/
theorem claim_C10 (sq lr : Bool) (hs : Int) (lbl : String) :
    buildTreeLines sq lr hs (.node lbl .nil .nil) =
      [⟨lbl, rootLeftOffset lbl.length, rootRightOffset lbl.length⟩] ∧
    printTree sq lr hs (.node lbl .nil .nil) = [lbl] := by
  have h1 : buildTreeLines sq lr hs (.node lbl .nil .nil) =
      [⟨lbl, rootLeftOffset lbl.length, rootRightOffset lbl.length⟩] := by
    simp [buildTreeLines, mergeLines, shiftLines]
  have hz : spaces 0 = "" := rfl
  have h2 : ∀ t : TreeLine, printTreeLines [t] =
      [spaces (-(min t.leftOffset t.leftOffset - t.leftOffset)) ++ t.line ++
        spaces (max t.rightOffset t.rightOffset - t.rightOffset)] := fun t => rfl
  refine ⟨h1, ?_⟩
  rw [printTree, h1, h2]
  simp only [min_self, max_self, sub_self, neg_zero, hz, String.empty_append,
    String.append_empty]

end AVLSpec
